import Mathlib

/-!
Verification of the path-addressed document transformation engine in
`sparcur/core.py` (`AtomicDictOperations`, `_DictTransformer`, `zipeq`).

Documents are nested Python dicts/lists/scalars; we embed them as the
inductive `JVal`.  Exceptions are embedded as the inductive `Err`;
the exception classes of `sparcur.exceptions` are not part of the
sources, so the hierarchy is modelled from the spec's error taxonomy
(section 7): every error kind is a distinct leaf class, none a subclass
of another that the engine catches.
-/

set_option autoImplicit false

/-- Modelled from the spec: the error taxonomy of section 7.
`noSourcePath` = `exc.NoSourcePathError` (MissingPathError),
`targetPathExists` = `exc.TargetPathExistsError` (TargetExistsError),
`lengthMismatch` = `exc.LengthMismatchError` (ArityMismatchError, raised
by `zipeq`), `valueError` = the `ValueError` of the derive empty policy,
`typeError`, `attributeError`, `indexError`, `nameError` = the Python
builtin exceptions, `baseException` = the bare `BaseException` raised on
the unreachable self-copy branch of `_copy_or_move`. -/
inductive Err : Type where
  | noSourcePath : Err
  | targetPathExists : Err
  | lengthMismatch : Err
  | typeError : Err
  | valueError : Err
  | attributeError : Err
  | indexError : Err
  | nameError : Err
  | baseException : Err
deriving DecidableEq, Repr

/-- A Python JSON-ish document value: scalars, sequences and string-keyed
mappings.  Mappings are insertion-ordered association lists, mirroring
Python dicts (keys are unique in any dict produced by Python). -/
inductive JVal : Type where
  | int : Int → JVal
  | str : String → JVal
  | null : JVal
  | list : List JVal → JVal
  | obj : List (String × JVal) → JVal

/-- Python `key in d` / `d[key]` on a dict: first binding of the key. -/
def lookupKey : List (String × JVal) → String → Option JVal
  | [], _ => none
  | (k, v) :: rest, key => if k == key then some v else lookupKey rest key

/-- Python `d[key] = v`: replace in place if the key exists, else append
(insertion order). -/
def setKey : List (String × JVal) → String → JVal → List (String × JVal)
  | [], key, v => [(key, v)]
  | (k, w) :: rest, key, v =>
    if k == key then (k, v) :: rest else (k, w) :: setKey rest key v

/-- Python `d.pop(key)`'s removal effect on the mapping. -/
def removeKey : List (String × JVal) → String → List (String × JVal)
  | [], _ => []
  | (k, w) :: rest, key => if k == key then rest else (k, w) :: removeKey rest key

/-- Python `needle in hay` on strings (substring containment). -/
def strContains (hay needle : String) : Bool :=
  needle.isEmpty || (hay.splitOn needle).length > 1

/-- Split `path` into `path[:-1]` and `path[-1]`; `none` when the path is
empty (where Python raises IndexError on `path[-1]`). -/
def initLast : List String → Option (List String × String)
  | [] => none
  | [k] => some ([], k)
  | k :: k2 :: rest =>
    match initLast (k2 :: rest) with
    | some (pre, lastk) => some (k :: pre, lastk)
    | none => none

/-- `p` is a (possibly improper) prefix of `q`. -/
def isPrefixL : List String → List String → Bool
  | [], _ => true
  | _ :: _, [] => false
  | a :: as, b :: bs => a == b && isPrefixL as bs

/-- `zipeq` (core.py 96-111): zip two sequences or fail with
`LengthMismatchError` as soon as either side is exhausted early. -/
def zipeq {α β : Type} : List α → List β → Except Err (List (α × β))
  | [], [] => .ok []
  | [], _ :: _ => .error .lengthMismatch
  | _ :: _, [] => .error .lengthMismatch
  | a :: as, b :: bs =>
    match zipeq as bs with
    | .ok rest => .ok ((a, b) :: rest)
    | .error e => .error e

namespace adops

/-- `AtomicDictOperations.apply` (core.py 444-459): run a computation;
catch `NoSourcePathError` and the `extra_error_types`, returning
`failureValue` when the source key is optional and re-raising otherwise;
`LengthMismatchError` is always re-raised (as is every other error). -/
def apply {α : Type} (r : Except Err α) (sourceKeyOptional : Bool)
    (extraErrorTypes : List Err) (failureValue : α) : Except Err α :=
  match r with
  | .ok v => .ok v
  | .error e =>
    if e = .noSourcePath ∨ e ∈ extraErrorTypes then
      if sourceKeyOptional then .ok failureValue else .error e
    else .error e

/-- `AtomicDictOperations.add` (core.py 461-482), fused with its prefix
walk.  Walks `target_path[:-1]` creating empty dicts for missing prefix
keys; at the final key: `update` always overwrites, else `fail_on_exists`
with an existing key raises `TargetPathExistsError`, else it writes.
Hitting a non-dict while walking raises TypeError in Python (membership
test, indexing or item assignment on the non-dict); the document keeps
all prefix dicts created before the failure, hence the returned pair of
(mutated document, optional error). -/
def add (cur : JVal) (path : List String) (v : JVal)
    (failOnExists update : Bool) : JVal × Option Err :=
  match path with
  | [] => (cur, some .indexError)
  | [key] =>
    match cur with
    | .obj fs =>
      if update then (.obj (setKey fs key v), none)
      else if failOnExists && (lookupKey fs key).isSome then
        (cur, some .targetPathExists)
      else (.obj (setKey fs key v), none)
    | _ => (cur, some .typeError)
  | name :: rest =>
    match cur with
    | .obj fs =>
      match lookupKey fs name with
      | some sub =>
        let r := add sub rest v failOnExists update
        (.obj (setKey fs name r.1), r.2)
      | none =>
        let r := add (.obj []) rest v failOnExists update
        (.obj (setKey fs name r.1), r.2)
    | _ => (cur, some .typeError)

/-- `AtomicDictOperations.update` (core.py 484-486): `add` with
`update=True`. -/
def update (cur : JVal) (path : List String) (v : JVal) : JVal × Option Err :=
  add cur path v true true

/-- Python `name in xs` for a string `name` and a list `xs`: true exactly
when some element is that string (`==` against non-strings is False). -/
def listHasStr : List JVal → String → Bool
  | [], _ => false
  | .str s :: rest, name => s == name || listHasStr rest name
  | _ :: rest, name => listHasStr rest name

/-- The prefix-walk loop of `_get_source` (core.py 519-526): follow
`source_path[:-1]`, raising `NoSourcePathError` on a missing key of a
dict.  On a non-dict node Python raises: TypeError for an `in` test on an
int/None, TypeError when indexing a list/str whose membership test
succeeded, and AttributeError from `source.keys()` in the error message
when membership on a list/str fails. -/
def prefixWalk : JVal → List String → Except Err JVal
  | v, [] => .ok v
  | .obj fs, name :: rest =>
    match lookupKey fs name with
    | some v => prefixWalk v rest
    | none => .error .noSourcePath
  | .list xs, name :: _ =>
    .error (if listHasStr xs name then .typeError else .attributeError)
  | .str s, name :: _ =>
    .error (if strContains s name then .typeError else .attributeError)
  | _, _ :: _ => .error .typeError

/-- `AtomicDictOperations.get` (core.py 488-497): `_get_source` then
`source[source_key]`.  The final membership test on a non-dict ends in
TypeError (directly, or converted from the AttributeError of
`source.keys()` by the except clause at 536-537, or from the subsequent
indexing). -/
def get : JVal → List String → Except Err JVal
  | _, [] => .error .indexError
  | cur, [key] =>
    match cur with
    | .obj fs =>
      match lookupKey fs key with
      | some v => .ok v
      | none => .error .noSourcePath
    | _ => .error .typeError
  | cur, name :: rest =>
    match cur with
    | .obj fs =>
      match lookupKey fs name with
      | some v => get v rest
      | none => .error .noSourcePath
    | .list xs => .error (if listHasStr xs name then .typeError else .attributeError)
    | .str s => .error (if strContains s name then .typeError else .attributeError)
    | _ => .error .typeError

/-- `AtomicDictOperations.pop` (core.py 499-503): `_get_source` then
`source.pop(source_key)`; returns the mutated document and the popped
value (or the error).  `str.pop` does not exist, hence the
AttributeError corner. -/
def popRemove : JVal → List String → String → JVal
  | .obj fs, [], key => .obj (removeKey fs key)
  | .obj fs, name :: rest, key =>
    match lookupKey fs name with
    | some sub => .obj (setKey fs name (popRemove sub rest key))
    | none => .obj fs
  | v, _, _ => v

def pop (data : JVal) (sourcePath : List String) : JVal × Except Err JVal :=
  match initLast sourcePath with
  | none => (data, .error .indexError)
  | some (prefixes, skey) =>
    match prefixWalk data prefixes with
    | .error e => (data, .error e)
    | .ok (.obj fs) =>
      match lookupKey fs skey with
      | some v => (popRemove data prefixes skey, .ok v)
      | none => (data, .error .noSourcePath)
    | .ok (.str s) =>
      (data, .error (if strContains s skey then .attributeError else .typeError))
    | .ok _ => (data, .error .typeError)

/-- The restore assignment `_parent[node_key] = source` of the `finally`
block of `_copy_or_move`: write `v` under `key` into the dict sitting at
`path` (that dict exists and was never replaced, since `add` only inserts
fresh keys on this configuration). -/
def writeAtPath : JVal → List String → String → JVal → JVal
  | .obj fs, [], key, v => .obj (setKey fs key v)
  | .obj fs, name :: rest, key, v =>
    match lookupKey fs name with
    | some sub => .obj (setKey fs name (writeAtPath sub rest key v))
    | none => .obj fs
  | cur, _, _, _ => cur

mutual
/-- Python deep `==` between document values (order of dict keys is
ignored by Python; the engine only compares a strict subvalue with the
whole document, which can never be equal for finite values, so the
structural equality used here decides the same, always-false, test). -/
def pyEq : JVal → JVal → Bool
  | .int a, .int b => a == b
  | .str a, .str b => a == b
  | .null, .null => true
  | .list xs, .list ys => pyEqList xs ys
  | .obj fs, .obj gs => pyEqFields fs gs
  | _, _ => false
def pyEqList : List JVal → List JVal → Bool
  | [], [] => true
  | x :: xs, y :: ys => pyEq x y && pyEqList xs ys
  | _, _ => false
def pyEqFields : List (String × JVal) → List (String × JVal) → Bool
  | [], [] => true
  | (k, v) :: fs, (k2, v2) :: gs => k == k2 && pyEq v v2 && pyEqFields fs gs
  | _, _ => false
end

/-- `AtomicDictOperations._copy_or_move` (core.py 542-568).
`_get_source` resolves the source; `move` pops it, `copy` deep-copies it
(pure values: the structural value itself); then `cls.add` writes it at
the target.  The `finally:` block runs whether or not the add raised, and
when moving with a non-empty prefix it assigns the popped value to
`_parent[node_key]`, where `node_key` is the LAST PREFIX KEY of the
source path, not the popped key. -/
def copyOrMove (data : JVal) (srcPath tgtPath : List String) (mv : Bool) :
    JVal × Option Err :=
  match initLast srcPath with
  | none => (data, some .indexError)
  | some (prefixes, skey) =>
    match prefixWalk data prefixes with
    | .error e => (data, some e)
    | .ok (.obj fs) =>
      match lookupKey fs skey with
      | none => (data, some .noSourcePath)
      | some sv =>
        if mv then
          let data1 := popRemove data prefixes skey
          let r := add data1 tgtPath sv true false
          match initLast prefixes with
          | none => r
          | some (_, nodeKey) => (writeAtPath r.1 prefixes nodeKey sv, r.2)
        else
          if pyEq sv data then (data, some .baseException)
          else add data tgtPath sv true false
    | .ok (.str s) =>
      (data, some (if mv && strContains s skey then .attributeError else .typeError))
    | .ok _ => (data, some .typeError)

/-- `AtomicDictOperations.copy` (core.py 505-507). -/
def copy (data : JVal) (srcPath tgtPath : List String) : JVal × Option Err :=
  copyOrMove data srcPath tgtPath false

/-- `AtomicDictOperations.move` (core.py 509-511). -/
def move (data : JVal) (srcPath tgtPath : List String) : JVal × Option Err :=
  copyOrMove data srcPath tgtPath true

end adops

namespace DictTransformer

/-- `_DictTransformer.get` (core.py 610-617), expressed: one
`adops.apply(adops.get, ...)` per source path, with the DEFAULT
`failure_value=None` of `apply` — an optional missing source therefore
yields Python `None` (`JVal.null`) in its slot. -/
def get (data : JVal) (gets : List (List String)) (sko : Bool) :
    Except Err (List JVal) :=
  match gets with
  | [] => .ok []
  | p :: rest => do
    let v ← adops.apply (adops.get data p) sko [] JVal.null
    let vs ← get data rest sko
    .ok (v :: vs)

/-- `_DictTransformer.update` (core.py 599-608): for each `(path, fn)`
rule it reads the value with `adops.get`, applies `fn`, and then executes
`adopts.update(data, path, new)` — `adopts` is an UNDEFINED NAME in the
source (the instance is called `adops`), so the first processed rule
raises `NameError` after computing `fn(value)`; the document is never
written.  `source_key_optional` is accepted but never consulted. -/
def update (data : JVal) (updates : List (List String × (JVal → JVal)))
    (_sko : Bool) : JVal × Option Err :=
  match updates with
  | [] => (data, none)
  | (path, f) :: _rest =>
    match adops.get data path with
    | .error e => (data, some e)
    | .ok v =>
      let _new := f v
      (data, some .nameError)

/-- A derive rule `[source-paths, function, target-paths]`
(core.py 663).  The transform receives the list of fetched source values
and returns its output sequence. -/
def DeriveRule : Type :=
  List (List String) × (List JVal → List JVal) × List (List String)

/-- The inner closure `empty` of `derive` (core.py 667-673): a value is
"empty" when it is None or a zero-length iterable; under the ERROR policy
an empty value raises ValueError.  The returned boolean is the literal
`empty or allow_empty and not empty` of the source. -/
def isEmptyVal : JVal → Bool
  | .null => true
  | .list xs => xs.isEmpty
  | .obj fs => fs.isEmpty
  | .str s => s.isEmpty
  | .int _ => false

def emptyCheck (allowEmpty errorEmpty : Bool) (v : JVal) : Except Err Bool :=
  let e := isEmptyVal v
  if e && errorEmpty then .error .valueError
  else .ok (e || (allowEmpty && !e))

/-- The closure `defer_get` of `derive` (core.py 679-683) wrapped in
`adops.apply(defer_get, data, source_paths, source_key_optional=sko)`
(core.py 698-699): `cls.get` is called with its DEFAULT
`source_key_optional=False`, so a missing source raises out of
`defer_get` and is handled by the surrounding `apply` with the default
`failure_value=None` — hence the `Option`: `none` is Python `None`. -/
def deriveInner (data : JVal) (sps : List (List String))
    (f : List JVal → List JVal) (sko : Bool) :
    Except Err (Option (List JVal)) :=
  adops.apply (Except.map (fun vs => some (f vs)) (get data sps false)) sko [] none

/-- The closure `express_zip` of `derive` (core.py 685-686):
`tuple(zipeq(target_paths, values))`.  When the inner apply produced
`None`, `zip_longest` raises TypeError (re-raised by `zipeq` as its
`One of these is not iterable` TypeError). -/
def expressZip (tps : List (List String)) (vals : Option (List JVal)) :
    Except Err (List (List String × JVal)) :=
  match vals with
  | none => .error .typeError
  | some vs => zipeq tps vs

/-- The write loop: `cls.add(data, ((tp, v) for tp, v in ... if not
empty(v)))` (core.py 695-703) — `_DictTransformer.add` (core.py 591-597)
iterates the generator and performs one `adops.add` (with its defaults,
`fail_on_exists=True`) per surviving pair; the empty-policy filter runs
lazily during that same iteration, so earlier writes persist when a
later pair raises. -/
def writePairs (data : JVal) (pairs : List (List String × JVal))
    (allowEmpty errorEmpty : Bool) : JVal × Option Err :=
  match pairs with
  | [] => (data, none)
  | (tp, v) :: rest =>
    match emptyCheck allowEmpty errorEmpty v with
    | .error e => (data, some e)
    | .ok true => writePairs data rest allowEmpty errorEmpty
    | .ok false =>
      let r := adops.add data tp v true false
      match r.2 with
      | some e => (r.1, some e)
      | none => writePairs r.1 rest allowEmpty errorEmpty

/-- One iteration of the rule loop of `derive` (core.py 676-707).  An
empty `target_paths` only runs the inner apply for its side effects; the
outer `except TypeError` re-raises a TypeError as a TypeError, which is
the identity on our error kinds. -/
def deriveRule (data : JVal) (allowEmpty errorEmpty : Bool) (sko : Bool)
    (r : DeriveRule) : JVal × Option Err :=
  match r with
  | (sps, f, tps) =>
    match tps with
    | [] =>
      match deriveInner data sps f sko with
      | .error e => (data, some e)
      | .ok _ => (data, none)
    | _ :: _ =>
      match deriveInner data sps f sko with
      | .error e => (data, some e)
      | .ok mvals =>
        match adops.apply (expressZip tps mvals) sko [Err.typeError] [] with
        | .error e => (data, some e)
        | .ok pairs => writePairs data pairs allowEmpty errorEmpty

def deriveRules (data : JVal) (allowEmpty errorEmpty : Bool) (sko : Bool) :
    List DeriveRule → JVal × Option Err
  | [] => (data, none)
  | r :: rest =>
    match deriveRule data allowEmpty errorEmpty sko r with
    | (d, some e) => (d, some e)
    | (d, none) => deriveRules d allowEmpty errorEmpty sko rest

/-- `_DictTransformer.derive` (core.py 661-707).  The policy string is
compared literally as in the source:
`allow_empty = empty == 'OK' and not empty == 'CULL'` and
`error_empty = empty == 'ERROR'` (source defaults:
`source_key_optional=True`, `empty='CULL'`). -/
def derive (data : JVal) (rules : List DeriveRule) (sko : Bool)
    (emptyPolicy : String) : JVal × Option Err :=
  deriveRules data ((emptyPolicy == "OK") && !(emptyPolicy == "CULL"))
    (emptyPolicy == "ERROR") sko rules

end DictTransformer

/-- C1: the claim states that on `{"x": {"y": 5}}`,
`move(["x","y"], ["z"])` yields `{"x": {}, "z": 5}`.  The code instead
yields `{"x": {"x": 5}, "z": 5}`: the `finally:` block of
`_copy_or_move` runs even when the add SUCCEEDED and re-inserts the
popped value into its old parent under `node_key` — the last PREFIX key
`"x"` — rather than leaving the parent empty.  This theorem evaluates the
embedded code at the claim's input, exhibiting the divergence. -/
theorem claim_C1_move_example_result :
    adops.move (.obj [("x", .obj [("y", .int 5)])]) ["x", "y"] ["z"] =
      (.obj [("x", .obj [("x", .int 5)]), ("z", .int 5)], none) := rfl

/-- C5: the claim states that when the final add of a move fails, the
popped value is restored to its original parent UNDER ITS ORIGINAL KEY,
leaving the document as before the call.  On `{"x": {"y": 5}, "z": 1}`,
`move(["x","y"], ["z"])` fails with `TargetPathExistsError` ("z" exists),
and the restore `_parent[node_key] = source` writes the value under the
prefix key `"x"`, not the popped key `"y"`: the document ends as
`{"x": {"x": 5}, "z": 1}`, which is not the original document. -/
theorem claim_C5_move_failed_restore_wrong_key :
    adops.move (.obj [("x", .obj [("y", .int 5)]), ("z", .int 1)])
        ["x", "y"] ["z"] =
      (.obj [("x", .obj [("x", .int 5)]), ("z", .int 1)],
        some .targetPathExists) := rfl

/-- C3: the claim states that under empty policy OK every transform
output is written at its target path.  In the code,
`empty(value)` returns `empty or allow_empty and not empty`, which under
`empty='OK'` is True for EVERY value, so the filter
`if not empty(v)` drops every pair: on `{"a": {"b": 1}}` with a rule
producing the non-empty output `2` for target `["a","c"]`, nothing is
written and the document is returned unchanged with no error. -/
theorem claim_C3_derive_ok_policy_drops_all :
    DictTransformer.derive (.obj [("a", .obj [("b", .int 1)])])
        [([["a", "b"]], (fun _ => [.int 2]), [["a", "c"]])] true "OK" =
      (.obj [("a", .obj [("b", .int 1)])], none) := rfl

/-- C4: the claim states that batch update applies `fn` to the value at
each path and writes the result back.  The code's
`_DictTransformer.update` calls `adopts.update` — a misspelling of
`adops` naming nothing — so on `{"a": 1}` with the identity rule the
first iteration raises `NameError` after computing `fn(value)` and the
document keeps its old value (nothing is ever written back). -/
theorem claim_C4_update_raises_nameerror :
    DictTransformer.update (.obj [("a", .int 1)]) [(["a"], fun v => v)]
        false =
      (.obj [("a", .int 1)], some .nameError) := rfl

/-- C6 counterexample: the claim states the failure marker of a batch
get is never `None`.  On the empty document with absent path `["a"]` and
the source marked optional, the slot yields exactly `JVal.null` — the
embedding of Python `None`, `apply`'s default `failure_value` — which is
a legal document payload, so the claim is false at this input. -/
theorem claim_C6_failure_marker_is_none :
    DictTransformer.get (.obj []) [["a"]] true = .ok [JVal.null] := rfl

/-- C6 amended: a batch get of an absent path with the source marked
optional yields `apply`'s default failure value — Python `None`
(`JVal.null`), indistinguishable from a legal `None` payload — in that
slot instead of raising, and the batch continues with the remaining
paths. -/
theorem claim_C6_amended_optional_miss_yields_none (data : JVal)
    (p : List String) (rest : List (List String))
    (h : adops.get data p = .error .noSourcePath) :
    DictTransformer.get data (p :: rest) true =
      Except.map (fun vs => JVal.null :: vs)
        (DictTransformer.get data rest true) := by
  have h1 : adops.apply (adops.get data p) true [] JVal.null = .ok JVal.null := by
    rw [h]; rfl
  cases hr : DictTransformer.get data rest true with
  | ok vs =>
    simp only [DictTransformer.get, h1, hr, Except.map, Bind.bind, Except.bind]
  | error e =>
    simp only [DictTransformer.get, h1, hr, Except.map, Bind.bind, Except.bind]

theorem claim_C6_amended_witness :
    adops.get (.obj []) ["a"] = .error .noSourcePath ∧
      DictTransformer.get (.obj []) [["a"]] true =
        Except.map (fun vs => JVal.null :: vs)
          (DictTransformer.get (.obj []) ([] : List (List String)) true) :=
  ⟨rfl, claim_C6_amended_optional_miss_yields_none (.obj []) ["a"] [] rfl⟩

theorem zipeq_length_ne {α β : Type} (as : List α) (bs : List β)
    (h : as.length ≠ bs.length) : zipeq as bs = .error .lengthMismatch := by
  induction as generalizing bs with
  | nil => cases bs with
    | nil => simp at h
    | cons b bs => rfl
  | cons a as ih =>
    cases bs with
    | nil => rfl
    | cons b bs =>
      have h2 : as.length ≠ bs.length := by
        intro he; exact h (by simp [he])
      simp [zipeq, ih bs h2]

/-- C2: a derive rule whose resolved sources feed a transform returning a
sequence of length different from the number of declared target paths
fails with the arity-mismatch error (`LengthMismatchError`, raised by the
strict `zipeq`), and the error propagates to the caller for EVERY value
of `source_key_optional` (and of the empty policy): `apply` re-raises
`LengthMismatchError` unconditionally and the derive loop stops. -/
theorem claim_C2_arity_mismatch_always_fatal (data : JVal)
    (sps : List (List String)) (f : List JVal → List JVal)
    (tp0 : List String) (tps : List (List String)) (args : List JVal)
    (rest : List DictTransformer.DeriveRule) (sko : Bool) (pol : String)
    (hres : DictTransformer.get data sps false = .ok args)
    (hlen : (f args).length ≠ (tp0 :: tps).length) :
    DictTransformer.derive data ((sps, f, tp0 :: tps) :: rest) sko pol =
      (data, some .lengthMismatch) := by
  have hinner : DictTransformer.deriveInner data sps f sko =
      .ok (some (f args)) := by
    simp [DictTransformer.deriveInner, hres, adops.apply, Except.map]
  have hzip : zipeq (tp0 :: tps) (f args) = .error .lengthMismatch :=
    zipeq_length_ne _ _ (fun he => hlen he.symm)
  simp [DictTransformer.derive, DictTransformer.deriveRules,
    DictTransformer.deriveRule, hinner, DictTransformer.expressZip, hzip,
    adops.apply]

theorem claim_C2_witness :
    DictTransformer.get (.obj [("a", .int 1)]) [["a"]] false =
        .ok [.int 1] ∧
      ((fun _ => [JVal.int 1, JVal.int 2]) [JVal.int 1]).length ≠
        ([["t1"], ["t2"], ["t3"]] : List (List String)).length ∧
      DictTransformer.derive (.obj [("a", .int 1)])
          [([["a"]], (fun _ => [JVal.int 1, JVal.int 2]),
            [["t1"], ["t2"], ["t3"]])] true "CULL" =
        (.obj [("a", .int 1)], some .lengthMismatch) :=
  ⟨rfl, by decide,
    claim_C2_arity_mismatch_always_fatal (.obj [("a", .int 1)]) [["a"]]
      (fun _ => [JVal.int 1, JVal.int 2]) ["t1"] [["t2"], ["t3"]]
      [JVal.int 1] [] true "CULL" rfl (by decide)⟩

theorem lookupKey_setKey_self (fs : List (String × JVal)) (key : String)
    (v : JVal) : lookupKey (setKey fs key v) key = some v := by
  induction fs with
  | nil => simp [setKey, lookupKey]
  | cons p rest ih =>
    obtain ⟨k, w⟩ := p
    by_cases hk : k = key
    · simp [setKey, lookupKey, hk]
    · simp [setKey, lookupKey, hk, ih]

theorem lookupKey_setKey_ne (fs : List (String × JVal)) (key k : String)
    (v : JVal) (h : k ≠ key) :
    lookupKey (setKey fs key v) k = lookupKey fs k := by
  have hks : key ≠ k := Ne.symm h
  induction fs with
  | nil => simp [setKey, lookupKey, hks]
  | cons p rest ih =>
    obtain ⟨k2, w⟩ := p
    by_cases hk : k2 = key
    · subst hk
      simp [setKey, lookupKey, hks]
    · by_cases hk2 : k2 = k
      · subst hk2
        simp [setKey, lookupKey, h]
      · simp [setKey, lookupKey, hk, hk2, ih]

theorem setKey_self (fs : List (String × JVal)) (key : String) (v : JVal)
    (h : lookupKey fs key = some v) : setKey fs key v = fs := by
  induction fs with
  | nil => simp [lookupKey] at h
  | cons p rest ih =>
    obtain ⟨k, w⟩ := p
    by_cases hk : k = key
    · subst hk
      simp [lookupKey] at h
      simp [setKey, h]
    · simp [lookupKey, hk] at h
      simp [setKey, hk, ih h]

theorem get_after_add (P : List String) (cur cur2 v : JVal)
    (foe upd : Bool) (h : adops.add cur P v foe upd = (cur2, none)) :
    adops.get cur2 P = .ok v := by
  induction P generalizing cur cur2 with
  | nil => simp [adops.add] at h
  | cons name rest ih =>
    cases rest with
    | nil =>
      cases cur with
      | obj fs =>
        by_cases hu : upd = true
        · subst hu
          simp only [adops.add] at h
          obtain ⟨h1, -⟩ := Prod.mk.injEq .. ▸ h
          subst h1
          simp [adops.get, lookupKey_setKey_self]
        · rw [Bool.not_eq_true] at hu
          subst hu
          by_cases hfe : (foe && (lookupKey fs name).isSome) = true
          · simp [adops.add, hfe] at h
          · simp only [adops.add, Bool.false_eq_true, if_false, hfe] at h
            obtain ⟨h1, -⟩ := Prod.mk.injEq .. ▸ h
            subst h1
            simp [adops.get, lookupKey_setKey_self]
      | int n => simp [adops.add] at h
      | str s => simp [adops.add] at h
      | null => simp [adops.add] at h
      | list xs => simp [adops.add] at h
    | cons n2 r2 =>
      cases cur with
      | obj fs =>
        cases hl : lookupKey fs name with
        | some sub =>
          simp only [adops.add, hl] at h
          obtain ⟨h1, h2⟩ := Prod.mk.injEq .. ▸ h
          subst h1
          have hrec : adops.add sub (n2 :: r2) v foe upd =
              ((adops.add sub (n2 :: r2) v foe upd).1, none) := by
            rw [← h2]
          have := ih sub _ hrec
          simp [adops.get, lookupKey_setKey_self, this]
        | none =>
          simp only [adops.add, hl] at h
          obtain ⟨h1, h2⟩ := Prod.mk.injEq .. ▸ h
          subst h1
          have hrec : adops.add (.obj []) (n2 :: r2) v foe upd =
              ((adops.add (.obj []) (n2 :: r2) v foe upd).1, none) := by
            rw [← h2]
          have := ih (.obj []) _ hrec
          simp [adops.get, lookupKey_setKey_self, this]
      | int n => simp [adops.add] at h
      | str s => simp [adops.add] at h
      | null => simp [adops.add] at h
      | list xs => simp [adops.add] at h

theorem add_on_existing (P : List String) (cur v w : JVal)
    (h : adops.get cur P = .ok v) :
    adops.add cur P w true false = (cur, some .targetPathExists) := by
  induction P generalizing cur with
  | nil => simp [adops.get] at h
  | cons name rest ih =>
    cases rest with
    | nil =>
      cases cur with
      | obj fs =>
        cases hl : lookupKey fs name with
        | some u => simp [adops.add, hl]
        | none => simp [adops.get, hl] at h
      | int n => simp [adops.get] at h
      | str s => simp [adops.get] at h
      | null => simp [adops.get] at h
      | list xs => simp [adops.get] at h
    | cons n2 r2 =>
      cases cur with
      | obj fs =>
        cases hl : lookupKey fs name with
        | some sub =>
          simp only [adops.get, hl] at h
          have hrec := ih sub h
          simp [adops.add, hl, hrec, setKey_self fs name sub hl]
        | none => simp [adops.get, hl] at h
      | int n => simp [adops.get] at h
      | str s => simp [adops.get] at h
      | null => simp [adops.get] at h
      | list xs => simp [adops.get] at h

theorem add_update_on_existing (P : List String) (cur v w : JVal)
    (h : adops.get cur P = .ok v) :
    (adops.add cur P w true true).2 = none := by
  induction P generalizing cur with
  | nil => simp [adops.get] at h
  | cons name rest ih =>
    cases rest with
    | nil =>
      cases cur with
      | obj fs => simp [adops.add]
      | int n => simp [adops.get] at h
      | str s => simp [adops.get] at h
      | null => simp [adops.get] at h
      | list xs => simp [adops.get] at h
    | cons n2 r2 =>
      cases cur with
      | obj fs =>
        cases hl : lookupKey fs name with
        | some sub =>
          simp only [adops.get, hl] at h
          have hrec := ih sub h
          simp [adops.add, hl, hrec]
        | none => simp [adops.get, hl] at h
      | int n => simp [adops.get] at h
      | str s => simp [adops.get] at h
      | null => simp [adops.get] at h
      | list xs => simp [adops.get] at h

/-- C8: after a successful `add(D, P, v, fail_on_exists=true)`, a second
identical add raises `TargetPathExistsError` and leaves the document —
and in particular the first written value — untouched, while a second
call with `update=true` overwrites the existing value without error. -/
theorem claim_C8_add_twice (D : JVal) (P : List String) (v w : JVal)
    (D1 : JVal) (h : adops.add D P v true false = (D1, none)) :
    adops.add D1 P w true false = (D1, some .targetPathExists) ∧
      adops.get D1 P = .ok v ∧
      (adops.add D1 P w true true).2 = none ∧
      adops.get (adops.add D1 P w true true).1 P = .ok w := by
  have hget : adops.get D1 P = .ok v := get_after_add P D D1 v true false h
  refine ⟨add_on_existing P D1 v w hget, hget,
    add_update_on_existing P D1 v w hget, ?_⟩
  have h2 : (adops.add D1 P w true true).2 = none :=
    add_update_on_existing P D1 v w hget
  have h3 : adops.add D1 P w true true =
      ((adops.add D1 P w true true).1, none) := by
    rw [← h2]
  exact get_after_add P D1 _ w true true h3

theorem claim_C8_witness :
    adops.add (.obj []) ["a"] (.int 1) true false =
        (.obj [("a", .int 1)], none) ∧
      (adops.add (.obj [("a", .int 1)]) ["a"] (.int 2) true false =
          (.obj [("a", .int 1)], some .targetPathExists) ∧
        adops.get (.obj [("a", .int 1)]) ["a"] = .ok (.int 1) ∧
        (adops.add (.obj [("a", .int 1)]) ["a"] (.int 2) true true).2 =
          none ∧
        adops.get
            (adops.add (.obj [("a", .int 1)]) ["a"] (.int 2) true true).1
            ["a"] = .ok (.int 2)) :=
  ⟨rfl, claim_C8_add_twice (.obj []) ["a"] (.int 1) (.int 2)
    (.obj [("a", .int 1)]) rfl⟩

/-- C10: a successful `add` with the default flags modifies only the
mappings along the target path: every binding of the original document
whose path is not a prefix of the target path (this includes every final
key off the written chain) still resolves to the same value afterwards. -/
theorem claim_C10_add_frame (D : JVal) (P : List String) (v : JVal)
    (D2 : JVal) (h : adops.add D P v true false = (D2, none))
    (Q : List String) (w : JVal) (hq : adops.get D Q = .ok w)
    (hnp : isPrefixL Q P = false) :
    adops.get D2 Q = .ok w := by
  induction P generalizing D D2 Q with
  | nil => simp [adops.add] at h
  | cons pn pt ih =>
    cases D with
    | obj fs =>
      cases pt with
      | nil =>
        cases hlk : lookupKey fs pn with
        | some u => simp [adops.add, hlk] at h
        | none =>
          have hadd : adops.add (JVal.obj fs) [pn] v true false =
              (.obj (setKey fs pn v), none) := by
            simp [adops.add, hlk]
          rw [hadd] at h
          obtain ⟨h1, -⟩ := Prod.mk.injEq .. ▸ h
          subst h1
          cases Q with
          | nil => simp [adops.get] at hq
          | cons qk qt =>
            by_cases hqp : qk = pn
            · subst hqp
              cases qt with
              | nil => simp [adops.get, hlk] at hq
              | cons q2 qs => simp [adops.get, hlk] at hq
            · cases qt with
              | nil =>
                simp only [adops.get] at hq ⊢
                rw [lookupKey_setKey_ne fs pn qk v hqp]
                exact hq
              | cons q2 qs =>
                simp only [adops.get] at hq ⊢
                rw [lookupKey_setKey_ne fs pn qk v hqp]
                exact hq
      | cons p2 ps =>
        cases hl : lookupKey fs pn with
        | some sub =>
          simp only [adops.add, hl] at h
          obtain ⟨h1, h2⟩ := Prod.mk.injEq .. ▸ h
          subst h1
          have hrec : adops.add sub (p2 :: ps) v true false =
              ((adops.add sub (p2 :: ps) v true false).1, none) := by
            rw [← h2]
          cases Q with
          | nil => simp [adops.get] at hq
          | cons qk qt =>
            by_cases hqp : qk = pn
            · subst hqp
              have hnp2 : isPrefixL qt (p2 :: ps) = false := by
                simpa [isPrefixL] using hnp
              cases qt with
              | nil => simp [isPrefixL] at hnp2
              | cons q2 qs =>
                simp only [adops.get, hl] at hq
                have := ih sub _ hrec (q2 :: qs) hq hnp2
                simp [adops.get, lookupKey_setKey_self, this]
            · cases qt with
              | nil =>
                simp only [adops.get] at hq ⊢
                rw [lookupKey_setKey_ne fs pn qk _ hqp]
                exact hq
              | cons q2 qs =>
                simp only [adops.get] at hq ⊢
                rw [lookupKey_setKey_ne fs pn qk _ hqp]
                exact hq
        | none =>
          simp only [adops.add, hl] at h
          obtain ⟨h1, h2⟩ := Prod.mk.injEq .. ▸ h
          subst h1
          cases Q with
          | nil => simp [adops.get] at hq
          | cons qk qt =>
            by_cases hqp : qk = pn
            · subst hqp
              cases qt with
              | nil => simp [adops.get, hl] at hq
              | cons q2 qs => simp [adops.get, hl] at hq
            · cases qt with
              | nil =>
                simp only [adops.get] at hq ⊢
                rw [lookupKey_setKey_ne fs pn qk _ hqp]
                exact hq
              | cons q2 qs =>
                simp only [adops.get] at hq ⊢
                rw [lookupKey_setKey_ne fs pn qk _ hqp]
                exact hq
    | int n => cases pt <;> simp [adops.add] at h
    | str s => cases pt <;> simp [adops.add] at h
    | null => cases pt <;> simp [adops.add] at h
    | list xs => cases pt <;> simp [adops.add] at h

theorem claim_C10_witness :
    adops.add (.obj [("b", .int 9)]) ["a"] (.int 1) true false =
        (.obj [("b", .int 9), ("a", .int 1)], none) ∧
      adops.get (.obj [("b", .int 9)]) ["b"] = .ok (.int 9) ∧
      isPrefixL ["b"] ["a"] = false ∧
      adops.get (.obj [("b", .int 9), ("a", .int 1)]) ["b"] =
        .ok (.int 9) :=
  ⟨rfl, rfl, rfl,
    claim_C10_add_frame (.obj [("b", .int 9)]) ["a"] (.int 1)
      (.obj [("b", .int 9), ("a", .int 1)]) rfl ["b"] (.int 9) rfl rfl⟩

namespace DictTransformer

/-- A nested-pipeline capability (the `pipeline_class` of `subpipeline`,
core.py 777): any object constructible from the assembled sub-document
(wrapped with `lifters` and `runtime_context`, which the engine treats
opaquely) that exposes a `data` result; `cid` is the class identity
reported in error records. -/
structure Capability : Type where
  cid : Nat
  build : JVal → JVal

/-- A subpipeline descriptor
`[[[get-path, add-path], ...], pipeline-class, target-path]`
(core.py 779). -/
def SubDesc : Type :=
  List (List String × Option (List String)) × Capability × Option (List String)

/-- One value yielded by the `subpipeline` generator: either the error
record `(get_path, error, pipeline_class)` for a skipped descriptor, or
a constructed capability instance (identified by `cid`, carrying its
`data`). -/
inductive SubOut : Type where
  | errRec : List String → Err → Nat → SubOut
  | pipe : Nat → JVal → SubOut

/-- The result of assembling `selected_data` for one descriptor
(core.py 790-805): fully built, skipped with a yielded error record
(`source_key_optional` and a `NoSourcePathError`), or failed with a
re-raised error. -/
inductive BuildRes : Type where
  | built : JVal → BuildRes
  | skip : List String → Err → BuildRes
  | fail : Err → BuildRes

/-- The inner `for get_path, add_path in get_adds` loop of `subpipeline`
(core.py 790-805): get each source from the main document, add it into
the fresh sub-document at the paired add path (or replace the
sub-document wholesale when the add path is None); only
`NoSourcePathError` is caught, and only when `source_key_optional`. -/
def buildSelected (data : JVal) (sko : Bool) (sel : JVal) :
    List (List String × Option (List String)) → BuildRes
  | [] => .built sel
  | (gp, ap) :: rest =>
    match adops.get data gp with
    | .error e =>
      if e = .noSourcePath then
        if sko then .skip gp e else .fail e
      else .fail e
    | .ok v =>
      match ap with
      | none => buildSelected data sko v rest
      | some apath =>
        let r := adops.add sel apath v true false
        match r.2 with
        | some e2 =>
          if e2 = .noSourcePath then
            if sko then .skip gp e2 else .fail e2
          else .fail e2
        | none => buildSelected data sko r.1 rest

/-- Phase 1 of `subpipeline` (core.py 788-812): build the `prepared`
list, yielding one error record per skipped descriptor; a re-raised
error aborts the generator (records already yielded stay delivered). -/
def subPhase1 (data : JVal) (sko : Bool) : List SubDesc →
    List (Option (List String) × Capability × JVal) × List SubOut × Option Err
  | [] => ([], [], none)
  | (pairs, cap, tp) :: rest =>
    match buildSelected data sko (.obj []) pairs with
    | .fail e => ([], [], some e)
    | .skip gp err =>
      let r := subPhase1 data sko rest
      (r.1, .errRec gp err cap.cid :: r.2.1, r.2.2)
    | .built sel =>
      let r := subPhase1 data sko rest
      ((tp, cap, sel) :: r.1, r.2.1, r.2.2)

/-- Phase 2 of `subpipeline` (core.py 814-822): construct each prepared
capability, merge its `data` at the target path with `adops.update` (or
`adops.add` when `update=False`; a None target only triggers the
capability), and yield the instance. -/
def subPhase2 (data : JVal) (upd : Bool) :
    List (Option (List String) × Capability × JVal) →
    JVal × List SubOut × Option Err
  | [] => (data, [], none)
  | (tp, cap, sel) :: rest =>
    let pdata := cap.build sel
    match tp with
    | some tpath =>
      let r := adops.add data tpath pdata true upd
      match r.2 with
      | some err => (r.1, [], some err)
      | none =>
        let r2 := subPhase2 r.1 upd rest
        (r2.1, .pipe cap.cid pdata :: r2.2.1, r2.2.2)
    | none =>
      let r2 := subPhase2 data upd rest
      (r2.1, .pipe cap.cid pdata :: r2.2.1, r2.2.2)

/-- `_DictTransformer.subpipeline` (core.py 776-822), expressed: returns
the final document, the yielded values in generator order (all error
records precede all capability instances, because the source builds the
whole `prepared` list before running any pipeline), and the error that
aborted the generator, if any (source defaults: `update=True`,
`source_key_optional=True`). -/
def subpipeline (data : JVal) (subs : List SubDesc) (upd sko : Bool) :
    JVal × List SubOut × Option Err :=
  let r := subPhase1 data sko subs
  match r.2.2 with
  | some e => (data, r.2.1, some e)
  | none =>
    let r2 := subPhase2 data upd r.1
    (r2.1, r.2.1 ++ r2.2.1, r2.2.2)

end DictTransformer

/-- C9: under the default optional-source policy, a subpipeline
descriptor whose required get fails with a missing path is skipped: the
build of its sub-document stops at the failing get (first conjunct), and
the operator yields the error record `(get_path, error, pipeline_class)`
in place of that descriptor while the remaining sibling descriptors are
processed exactly as if the skipped one were absent (second conjunct) —
nothing is raised for the skipped descriptor. -/
theorem claim_C9_subpipeline_skips_and_continues (data : JVal) :
    (∀ (sel : JVal) (gp : List String) (ap : Option (List String))
        (more : List (List String × Option (List String))),
      adops.get data gp = .error .noSourcePath →
        DictTransformer.buildSelected data true sel ((gp, ap) :: more) =
          .skip gp .noSourcePath) ∧
    (∀ (pairs : List (List String × Option (List String)))
        (cap : DictTransformer.Capability) (tp : Option (List String))
        (others : List DictTransformer.SubDesc) (upd : Bool)
        (gp : List String) (e : Err),
      DictTransformer.buildSelected data true (.obj []) pairs =
          .skip gp e →
        DictTransformer.subpipeline data ((pairs, cap, tp) :: others)
            upd true =
          ((DictTransformer.subpipeline data others upd true).1,
            .errRec gp e cap.cid ::
              (DictTransformer.subpipeline data others upd true).2.1,
            (DictTransformer.subpipeline data others upd true).2.2)) := by
  constructor
  · intro sel gp ap more hget
    simp [DictTransformer.buildSelected, hget]
  · intro pairs cap tp others upd gp e hskip
    simp only [DictTransformer.subpipeline, DictTransformer.subPhase1,
      hskip]
    cases hr : (DictTransformer.subPhase1 data true others).2.2 with
    | some e2 => simp [hr]
    | none => simp [hr]

theorem claim_C9_witness :
    adops.get (JVal.obj [("k", .int 7)]) ["miss"] =
        .error .noSourcePath ∧
      DictTransformer.buildSelected (JVal.obj [("k", .int 7)]) true
          (.obj []) [(["miss"], some ["m"])] =
        .skip ["miss"] .noSourcePath ∧
      DictTransformer.subpipeline (JVal.obj [("k", .int 7)])
          [([(["miss"], some ["m"])], ⟨1, fun v => v⟩, some ["out"]),
            ([(["k"], some ["kk"])], ⟨2, fun _ => .int 3⟩, some ["out2"])]
          true true =
        ((DictTransformer.subpipeline (JVal.obj [("k", .int 7)])
            [([(["k"], some ["kk"])], ⟨2, fun _ => .int 3⟩, some ["out2"])]
            true true).1,
          .errRec ["miss"] .noSourcePath 1 ::
            (DictTransformer.subpipeline (JVal.obj [("k", .int 7)])
              [([(["k"], some ["kk"])], ⟨2, fun _ => .int 3⟩,
                some ["out2"])] true true).2.1,
          (DictTransformer.subpipeline (JVal.obj [("k", .int 7)])
            [([(["k"], some ["kk"])], ⟨2, fun _ => .int 3⟩,
              some ["out2"])] true true).2.2) :=
  ⟨rfl,
    (claim_C9_subpipeline_skips_and_continues
        (JVal.obj [("k", .int 7)])).1 (.obj []) ["miss"] (some ["m"]) []
      rfl,
    (claim_C9_subpipeline_skips_and_continues
        (JVal.obj [("k", .int 7)])).2 [(["miss"], some ["m"])]
      ⟨1, fun v => v⟩ (some ["out"])
      [([(["k"], some ["kk"])], ⟨2, fun _ => .int 3⟩, some ["out2"])]
      true ["miss"] .noSourcePath
      ((claim_C9_subpipeline_skips_and_continues
          (JVal.obj [("k", .int 7)])).1 (.obj []) ["miss"] (some ["m"])
        [] rfl)⟩

/-!
The identity-tagged model for the aliasing claim about `copy`.

Python dicts are mutable heap objects: `copy.deepcopy` in
`_copy_or_move` exists precisely so that the subtree written at the
destination shares no mutable object with the source subtree.  To state
aliasing in a shallow embedding we tag every mapping node with its
object identity (a `Nat`); a document is faithful to a Python value tree
when all tags are distinct (Python guarantees distinct `id()` for
distinct live objects, and JSON-decoded documents are trees).  An
in-place mutation of the dict with identity `i` — `d[k] = v`, `del`,
`clear`, any rebuild of its items — is `mutateId i f`, which rewrites
the fields of every node carrying tag `i` with the arbitrary
transformer `f`.  `deepcopy` allocates fresh tags from a counter that
sits above every tag of the document, exactly like fresh heap
addresses.
-/

mutual
/-- Identity-tagged document values (the mapping/scalar fragment that
`copy` manipulates): `obj i fs` is the dict with object identity `i`. -/
inductive IVal : Type where
  | int : Int → IVal
  | str : String → IVal
  | null : IVal
  | obj : Nat → IFields → IVal
/-- The insertion-ordered fields of a tagged dict. -/
inductive IFields : Type where
  | nil : IFields
  | cons : String → IVal → IFields → IFields
end

/-- Python `d[key]` on a tagged dict. -/
def ilookup : IFields → String → Option IVal
  | .nil, _ => none
  | .cons k v rest, key => if k == key then some v else ilookup rest key

/-- Python `d[key] = v` on a tagged dict (replace in place or append). -/
def isetKey : IFields → String → IVal → IFields
  | .nil, key, v => .cons key v .nil
  | .cons k w rest, key, v =>
    if k == key then .cons k v rest else .cons k w (isetKey rest key v)

mutual
/-- All object identities occurring in a value. -/
def allIds : IVal → List Nat
  | .obj j fs => j :: allIdsF fs
  | _ => []
def allIdsF : IFields → List Nat
  | .nil => []
  | .cons _ v rest => allIds v ++ allIdsF rest
end

/-- Resolve a path through tagged dicts (the observer for "the subtree
at this path"). -/
def ivalueAt : IVal → List String → Option IVal
  | v, [] => some v
  | .obj _ fs, k :: rest =>
    match ilookup fs k with
    | some v => ivalueAt v rest
    | none => none
  | _, _ :: _ => none

/-- The identities of the dicts in which keys are looked up while
resolving a path (the nodes a Python traversal reads). -/
def pathIds : IVal → List String → List Nat
  | _, [] => []
  | .obj j fs, k :: rest =>
    j :: (match ilookup fs k with
          | some v => pathIds v rest
          | none => [])
  | _, _ :: _ => []

mutual
/-- In-place mutation of the dict with identity `i`: its fields are
rewritten by the arbitrary transformer `f` (covering `d[k] = v`,
deletion, clearing, ...); every other node is untouched. -/
def mutateId (i : Nat) (f : IFields → IFields) : IVal → IVal
  | .obj j fs =>
    let fs2 := mutateIdF i f fs
    .obj j (if j = i then f fs2 else fs2)
  | v => v
def mutateIdF (i : Nat) (f : IFields → IFields) : IFields → IFields
  | .nil => .nil
  | .cons k v rest => .cons k (mutateId i f v) (mutateIdF i f rest)
end

mutual
/-- `copy.deepcopy` in the tagged model: the copy is structurally equal
but every dict of the result carries a fresh identity drawn from the
counter `c` (the model of fresh heap allocation). -/
def deepcopy : IVal → Nat → IVal × Nat
  | .obj _ fs, c =>
    let r := deepcopyF fs (c + 1)
    (.obj c r.1, r.2)
  | v, c => (v, c)
def deepcopyF : IFields → Nat → IFields × Nat
  | .nil, c => (.nil, c)
  | .cons k v rest, c =>
    let r1 := deepcopy v c
    let r2 := deepcopyF rest r1.2
    (.cons k r1.1 r2.1, r2.2)
end

mutual
/-- Python deep `==` on tagged values: identities are ignored (Python
compares contents, not `id()`). -/
def ivalEq : IVal → IVal → Bool
  | .int a, .int b => a == b
  | .str a, .str b => a == b
  | .null, .null => true
  | .obj _ fs, .obj _ gs => ifieldsEq fs gs
  | _, _ => false
def ifieldsEq : IFields → IFields → Bool
  | .nil, .nil => true
  | .cons k v r, .cons k2 v2 r2 => k == k2 && ivalEq v v2 && ifieldsEq r r2
  | _, _ => false
end

/-- The `_get_source` prefix walk on tagged values (same control flow as
`prefixWalk`; the list corners do not arise in this fragment). -/
def iPrefixWalk : IVal → List String → Except Err IVal
  | v, [] => .ok v
  | .obj _ fs, name :: rest =>
    match ilookup fs name with
    | some v => iPrefixWalk v rest
    | none => .error .noSourcePath
  | .str s, name :: _ =>
    .error (if strContains s name then .typeError else .attributeError)
  | _, _ :: _ => .error .typeError

/-- `AtomicDictOperations.add` on tagged values with the defaults used
by `_copy_or_move` (`fail_on_exists=True`, `update=False`), threading
the fresh-identity counter for the empty dicts created on missing
prefixes. -/
def iAdd (cur : IVal) (path : List String) (v : IVal) (c : Nat) :
    IVal × Nat × Option Err :=
  match path with
  | [] => (cur, c, some .indexError)
  | [key] =>
    match cur with
    | .obj j fs =>
      match ilookup fs key with
      | some _ => (cur, c, some .targetPathExists)
      | none => (.obj j (isetKey fs key v), c, none)
    | _ => (cur, c, some .typeError)
  | name :: rest =>
    match cur with
    | .obj j fs =>
      match ilookup fs name with
      | some sub =>
        let r := iAdd sub rest v c
        (.obj j (isetKey fs name r.1), r.2.1, r.2.2)
      | none =>
        let r := iAdd (.obj c .nil) rest v (c + 1)
        (.obj j (isetKey fs name r.1), r.2.1, r.2.2)
    | _ => (cur, c, some .typeError)

/-- `AtomicDictOperations._copy_or_move` with `move=False` (core.py
542-562) on tagged values: `_get_source`, the `source != data` check,
`copy.deepcopy`, then `cls.add` at the target. -/
def iCopy (data : IVal) (srcPath tgtPath : List String) (c : Nat) :
    IVal × Nat × Option Err :=
  match initLast srcPath with
  | none => (data, c, some .indexError)
  | some (prefixes, skey) =>
    match iPrefixWalk data prefixes with
    | .error e => (data, c, some e)
    | .ok (.obj _ fs) =>
      match ilookup fs skey with
      | none => (data, c, some .noSourcePath)
      | some sv =>
        if ivalEq sv data then (data, c, some .baseException)
        else
          let dc := deepcopy sv c
          iAdd data tgtPath dc.1 dc.2
    | .ok (.str _) => (data, c, some .typeError)
    | .ok _ => (data, c, some .typeError)

/-- The identities of the subtree sitting at a path (empty when the path
does not resolve). -/
def subIds (d : IVal) (p : List String) : List Nat :=
  match ivalueAt d p with
  | some v => allIds v
  | none => []

theorem ilookup_isetKey_self : ∀ (fs : IFields) (key : String) (v : IVal),
    ilookup (isetKey fs key v) key = some v
  | .nil, key, v => by simp [isetKey, ilookup]
  | .cons k w rest, key, v => by
    by_cases hk : k = key
    · simp [isetKey, ilookup, hk]
    · simp [isetKey, ilookup, hk, ilookup_isetKey_self rest key v]

theorem ilookup_isetKey_ne : ∀ (fs : IFields) (key k : String) (v : IVal),
    k ≠ key → ilookup (isetKey fs key v) k = ilookup fs k
  | .nil, key, k, v, h => by
    have hks : key ≠ k := Ne.symm h
    simp [isetKey, ilookup, hks]
  | .cons k2 w rest, key, k, v, h => by
    by_cases hk : k2 = key
    · subst hk
      have hks : k2 ≠ k := Ne.symm h
      simp [isetKey, ilookup, hks]
    · by_cases hk2 : k2 = k
      · subst hk2
        simp [isetKey, ilookup, h]
      · simp [isetKey, ilookup, hk, hk2, ilookup_isetKey_ne rest key k v h]

theorem ilookup_mutateIdF (i : Nat) (f : IFields → IFields) :
    ∀ (fs : IFields) (k : String),
    ilookup (mutateIdF i f fs) k = (ilookup fs k).map (mutateId i f)
  | .nil, k => by simp [mutateIdF, ilookup]
  | .cons k2 v rest, k => by
    by_cases hk : k2 = k
    · simp [mutateIdF, ilookup, hk]
    · simp [mutateIdF, ilookup, hk, ilookup_mutateIdF i f rest k]

mutual
theorem mutateId_not_mem (i : Nat) (f : IFields → IFields) :
    ∀ v : IVal, i ∉ allIds v → mutateId i f v = v
  | .int n, _ => rfl
  | .str s, _ => rfl
  | .null, _ => rfl
  | .obj j fs, h => by
    have hj : j ≠ i := by
      intro he
      exact h (by simp [allIds, he])
    have hfs : i ∉ allIdsF fs := by
      intro hm
      exact h (by simp [allIds, hm])
    simp [mutateId, hj, mutateIdF_not_mem i f fs hfs]
theorem mutateIdF_not_mem (i : Nat) (f : IFields → IFields) :
    ∀ fs : IFields, i ∉ allIdsF fs → mutateIdF i f fs = fs
  | .nil, _ => rfl
  | .cons k v rest, h => by
    have hv : i ∉ allIds v := by
      intro hm
      exact h (by simp [allIdsF, hm])
    have hr : i ∉ allIdsF rest := by
      intro hm
      exact h (by simp [allIdsF, hm])
    simp [mutateIdF, mutateId_not_mem i f v hv, mutateIdF_not_mem i f rest hr]
end

theorem ivalueAt_mutateId (i : Nat) (f : IFields → IFields) :
    ∀ (q : List String) (t : IVal), i ∉ pathIds t q →
      ivalueAt (mutateId i f t) q = (ivalueAt t q).map (mutateId i f)
  | [], t, _ => by simp [ivalueAt]
  | k :: rest, t, h => by
    cases t with
    | obj j fs =>
      have hj : j ≠ i := by
        intro he
        exact h (by simp [pathIds, he])
      cases hl : ilookup fs k with
      | some v =>
        have hv : i ∉ pathIds v rest := by
          intro hm
          exact h (by simp [pathIds, hl, hm])
        have := ivalueAt_mutateId i f rest v hv
        simp [mutateId, hj, ivalueAt, ilookup_mutateIdF, hl, this]
      | none => simp [mutateId, hj, ivalueAt, ilookup_mutateIdF, hl]
    | int n => simp [mutateId, ivalueAt]
    | str s => simp [mutateId, ivalueAt]
    | null => simp [mutateId, ivalueAt]

mutual
theorem deepcopy_counter_le : ∀ (v : IVal) (c : Nat), c ≤ (deepcopy v c).2
  | .int n, c => le_refl c
  | .str s, c => le_refl c
  | .null, c => le_refl c
  | .obj j fs, c => by
    have := deepcopyF_counter_le fs (c + 1)
    simp only [deepcopy]
    omega
theorem deepcopyF_counter_le : ∀ (fs : IFields) (c : Nat),
    c ≤ (deepcopyF fs c).2
  | .nil, c => le_refl c
  | .cons k v rest, c => by
    have h1 := deepcopy_counter_le v c
    have h2 := deepcopyF_counter_le rest (deepcopy v c).2
    simp only [deepcopyF]
    omega
end

mutual
theorem deepcopy_ids_bound : ∀ (v : IVal) (c : Nat) (x : Nat),
    x ∈ allIds (deepcopy v c).1 → c ≤ x ∧ x < (deepcopy v c).2
  | .int n, c, x => by simp [deepcopy, allIds]
  | .str s, c, x => by simp [deepcopy, allIds]
  | .null, c, x => by simp [deepcopy, allIds]
  | .obj j fs, c, x => by
    intro hx
    have hc := deepcopyF_counter_le fs (c + 1)
    simp only [deepcopy, allIds, List.mem_cons] at hx ⊢
    cases hx with
    | inl he => subst he; omega
    | inr hm =>
      have := deepcopyF_ids_bound fs (c + 1) x hm
      omega
theorem deepcopyF_ids_bound : ∀ (fs : IFields) (c : Nat) (x : Nat),
    x ∈ allIdsF (deepcopyF fs c).1 → c ≤ x ∧ x < (deepcopyF fs c).2
  | .nil, c, x => by simp [deepcopyF, allIdsF]
  | .cons k v rest, c, x => by
    intro hx
    have hc1 := deepcopy_counter_le v c
    have hc2 := deepcopyF_counter_le rest (deepcopy v c).2
    simp only [deepcopyF, allIdsF, List.mem_append] at hx ⊢
    cases hx with
    | inl hm =>
      have := deepcopy_ids_bound v c x hm
      omega
    | inr hm =>
      have := deepcopyF_ids_bound rest (deepcopy v c).2 x hm
      omega
end

theorem ilookup_ids_sub : ∀ (fs : IFields) (k : String) (v : IVal),
    ilookup fs k = some v → ∀ x, x ∈ allIds v → x ∈ allIdsF fs
  | .nil, k, v, h => by simp [ilookup] at h
  | .cons k2 w rest, k, v, h => by
    intro x hx
    by_cases hk : k2 = k
    · simp [ilookup, hk] at h
      subst h
      simp [allIdsF, hx]
    · simp [ilookup, hk] at h
      simp [allIdsF]
      exact Or.inr (ilookup_ids_sub rest k v h x hx)

theorem ivalueAt_ids_sub : ∀ (q : List String) (t w : IVal),
    ivalueAt t q = some w → ∀ x, x ∈ allIds w → x ∈ allIds t
  | [], t, w, h, x, hx => by
    simp [ivalueAt] at h
    subst h
    exact hx
  | k :: rest, t, w, h, x, hx => by
    cases t with
    | obj j fs =>
      cases hl : ilookup fs k with
      | some v =>
        simp only [ivalueAt, hl] at h
        have := ivalueAt_ids_sub rest v w h x hx
        simp [allIds]
        exact Or.inr (ilookup_ids_sub fs k v hl x this)
      | none => simp [ivalueAt, hl] at h
    | int n => simp [ivalueAt] at h
    | str s => simp [ivalueAt] at h
    | null => simp [ivalueAt] at h

theorem pathIds_sub : ∀ (q : List String) (t : IVal) (x : Nat),
    x ∈ pathIds t q → x ∈ allIds t
  | [], t, x => by simp [pathIds]
  | k :: rest, t, x => by
    cases t with
    | obj j fs =>
      intro hx
      simp only [pathIds, List.mem_cons] at hx
      cases hx with
      | inl he => simp [allIds, he]
      | inr hm =>
        cases hl : ilookup fs k with
        | some v =>
          rw [hl] at hm
          have := pathIds_sub rest v x hm
          simp [allIds]
          exact Or.inr (ilookup_ids_sub fs k v hl x this)
        | none => rw [hl] at hm; simp at hm
    | int n => simp [pathIds]
    | str s => simp [pathIds]
    | null => simp [pathIds]

theorem iAdd_counter_le : ∀ (p : List String) (cur v : IVal) (c : Nat),
    c ≤ (iAdd cur p v c).2.1
  | [], cur, v, c => le_refl c
  | [key], cur, v, c => by
    cases cur with
    | obj j fs => cases hl : ilookup fs key <;> simp [iAdd, hl]
    | int n => simp [iAdd]
    | str s => simp [iAdd]
    | null => simp [iAdd]
  | name :: k2 :: rest2, cur, v, c => by
    cases cur with
    | obj j fs =>
      cases hl : ilookup fs name with
      | some sub =>
        have := iAdd_counter_le (k2 :: rest2) sub v c
        simp [iAdd, hl]
        omega
      | none =>
        have := iAdd_counter_le (k2 :: rest2) (.obj c .nil) v (c + 1)
        simp [iAdd, hl]
        omega
    | int n => simp [iAdd]
    | str s => simp [iAdd]
    | null => simp [iAdd]

theorem iAdd_frame : ∀ (p : List String) (cur cur2 v : IVal) (c c2 : Nat),
    iAdd cur p v c = (cur2, c2, none) →
    ∀ (q : List String) (w : IVal), ivalueAt cur q = some w →
      isPrefixL q p = false →
      ivalueAt cur2 q = some w ∧ pathIds cur2 q = pathIds cur q
  | [], cur, cur2, v, c, c2, h => by simp [iAdd] at h
  | [key], cur, cur2, v, c, c2, h => by
    cases cur with
    | obj j fs =>
      cases hlk : ilookup fs key with
      | some u => simp [iAdd, hlk] at h
      | none =>
        simp only [iAdd, hlk, Prod.mk.injEq] at h
        obtain ⟨h1, -, -⟩ := h
        subst h1
        intro q w hq hnp
        cases q with
        | nil => simp [isPrefixL] at hnp
        | cons qk qt =>
          by_cases hqp : qk = key
          · subst hqp
            simp [ivalueAt, hlk] at hq
          · constructor
            · simpa [ivalueAt, ilookup_isetKey_ne fs key qk v hqp] using hq
            · simp [pathIds, ilookup_isetKey_ne fs key qk v hqp]
    | int n => simp [iAdd] at h
    | str s => simp [iAdd] at h
    | null => simp [iAdd] at h
  | name :: k2 :: rest2, cur, cur2, v, c, c2, h => by
    cases cur with
    | obj j fs =>
      cases hl : ilookup fs name with
      | some sub =>
        simp only [iAdd, hl, Prod.mk.injEq] at h
        obtain ⟨h1, h2, h3⟩ := h
        subst h1
        have hrec : iAdd sub (k2 :: rest2) v c =
            ((iAdd sub (k2 :: rest2) v c).1, c2, none) := by
          rw [← h2, ← h3]
        intro q w hq hnp
        cases q with
        | nil => simp [isPrefixL] at hnp
        | cons qk qt =>
          by_cases hqp : qk = name
          · subst hqp
            have hnp2 : isPrefixL qt (k2 :: rest2) = false := by
              simpa [isPrefixL] using hnp
            cases qt with
            | nil => simp [isPrefixL] at hnp2
            | cons q2 qs =>
              simp only [ivalueAt, hl] at hq
              have := iAdd_frame (k2 :: rest2) sub _ v c c2 hrec
                (q2 :: qs) w hq hnp2
              constructor
              · simp [ivalueAt, ilookup_isetKey_self, this.1]
              · simp [pathIds, ilookup_isetKey_self, hl, this.2]
          · constructor
            · simpa [ivalueAt, ilookup_isetKey_ne fs name qk _ hqp] using hq
            · simp [pathIds, ilookup_isetKey_ne fs name qk _ hqp]
      | none =>
        simp only [iAdd, hl, Prod.mk.injEq] at h
        obtain ⟨h1, h2, h3⟩ := h
        subst h1
        intro q w hq hnp
        cases q with
        | nil => simp [isPrefixL] at hnp
        | cons qk qt =>
          by_cases hqp : qk = name
          · subst hqp
            cases qt <;> simp [ivalueAt, hl] at hq
          · constructor
            · simpa [ivalueAt, ilookup_isetKey_ne fs name qk _ hqp] using hq
            · simp [pathIds, ilookup_isetKey_ne fs name qk _ hqp]
    | int n => simp [iAdd] at h
    | str s => simp [iAdd] at h
    | null => simp [iAdd] at h

theorem iAdd_at : ∀ (p : List String) (cur cur2 v : IVal) (c c2 : Nat),
    iAdd cur p v c = (cur2, c2, none) → ivalueAt cur2 p = some v
  | [], cur, cur2, v, c, c2, h => by simp [iAdd] at h
  | [key], cur, cur2, v, c, c2, h => by
    cases cur with
    | obj j fs =>
      cases hlk : ilookup fs key with
      | some u => simp [iAdd, hlk] at h
      | none =>
        simp only [iAdd, hlk, Prod.mk.injEq] at h
        obtain ⟨h1, -, -⟩ := h
        subst h1
        simp [ivalueAt, ilookup_isetKey_self]
    | int n => simp [iAdd] at h
    | str s => simp [iAdd] at h
    | null => simp [iAdd] at h
  | name :: k2 :: rest2, cur, cur2, v, c, c2, h => by
    cases cur with
    | obj j fs =>
      cases hl : ilookup fs name with
      | some sub =>
        simp only [iAdd, hl, Prod.mk.injEq] at h
        obtain ⟨h1, h2, h3⟩ := h
        subst h1
        have hrec : iAdd sub (k2 :: rest2) v c =
            ((iAdd sub (k2 :: rest2) v c).1, c2, none) := by
          rw [← h2, ← h3]
        have := iAdd_at (k2 :: rest2) sub _ v c c2 hrec
        simp [ivalueAt, ilookup_isetKey_self, this]
      | none =>
        simp only [iAdd, hl, Prod.mk.injEq] at h
        obtain ⟨h1, h2, h3⟩ := h
        subst h1
        have hrec : iAdd (.obj c .nil) (k2 :: rest2) v (c + 1) =
            ((iAdd (.obj c .nil) (k2 :: rest2) v (c + 1)).1, c2, none) := by
          rw [← h2, ← h3]
        have := iAdd_at (k2 :: rest2) (.obj c .nil) _ v (c + 1) c2 hrec
        simp [ivalueAt, ilookup_isetKey_self, this]
    | int n => simp [iAdd] at h
    | str s => simp [iAdd] at h
    | null => simp [iAdd] at h

theorem iAdd_pathIds : ∀ (p : List String) (cur cur2 v : IVal) (c c2 : Nat),
    iAdd cur p v c = (cur2, c2, none) →
    ∀ x, x ∈ pathIds cur2 p → x ∈ pathIds cur p ∨ (c ≤ x ∧ x < c2)
  | [], cur, cur2, v, c, c2, h => by simp [iAdd] at h
  | [key], cur, cur2, v, c, c2, h => by
    cases cur with
    | obj j fs =>
      cases hlk : ilookup fs key with
      | some u => simp [iAdd, hlk] at h
      | none =>
        simp only [iAdd, hlk, Prod.mk.injEq] at h
        obtain ⟨h1, -, -⟩ := h
        subst h1
        intro x hx
        simp only [pathIds, ilookup_isetKey_self, List.mem_cons] at hx
        cases hx with
        | inl he => exact Or.inl (by simp [pathIds, hlk, he])
        | inr hm => simp [pathIds] at hm
    | int n => simp [iAdd] at h
    | str s => simp [iAdd] at h
    | null => simp [iAdd] at h
  | name :: k2 :: rest2, cur, cur2, v, c, c2, h => by
    cases cur with
    | obj j fs =>
      cases hl : ilookup fs name with
      | some sub =>
        simp only [iAdd, hl, Prod.mk.injEq] at h
        obtain ⟨h1, h2, h3⟩ := h
        subst h1
        have hrec : iAdd sub (k2 :: rest2) v c =
            ((iAdd sub (k2 :: rest2) v c).1, c2, none) := by
          rw [← h2, ← h3]
        intro x hx
        simp only [pathIds, ilookup_isetKey_self, List.mem_cons] at hx
        cases hx with
        | inl he => exact Or.inl (by simp [pathIds, hl, he])
        | inr hm =>
          cases iAdd_pathIds (k2 :: rest2) sub _ v c c2 hrec x hm with
          | inl hin => exact Or.inl (by simp [pathIds, hl]; exact Or.inr hin)
          | inr hiv => exact Or.inr hiv
      | none =>
        simp only [iAdd, hl, Prod.mk.injEq] at h
        obtain ⟨h1, h2, h3⟩ := h
        subst h1
        have hrec : iAdd (.obj c .nil) (k2 :: rest2) v (c + 1) =
            ((iAdd (.obj c .nil) (k2 :: rest2) v (c + 1)).1, c2, none) := by
          rw [← h2, ← h3]
        have hcle : c + 1 ≤ c2 := by
          have := iAdd_counter_le (k2 :: rest2) (.obj c .nil) v (c + 1)
          rw [hrec] at this
          exact this
        intro x hx
        simp only [pathIds, ilookup_isetKey_self, List.mem_cons] at hx
        cases hx with
        | inl he => exact Or.inl (by simp [pathIds, hl, he])
        | inr hm =>
          cases iAdd_pathIds (k2 :: rest2) (.obj c .nil) _ v (c + 1) c2
              hrec x hm with
          | inl hin =>
            simp [pathIds, ilookup] at hin
            exact Or.inr ⟨by omega, by omega⟩
          | inr hiv => exact Or.inr ⟨by omega, hiv.2⟩
    | int n => simp [iAdd] at h
    | str s => simp [iAdd] at h
    | null => simp [iAdd] at h

theorem nodup_ilookup : ∀ (fs : IFields) (k : String) (v : IVal),
    (allIdsF fs).Nodup → ilookup fs k = some v → (allIds v).Nodup
  | .nil, k, v, _, h => by simp [ilookup] at h
  | .cons k2 w rest, k, v, hn, h => by
    have hsplit := (List.nodup_append.mp (by simpa [allIdsF] using hn))
    by_cases hk : k2 = k
    · simp [ilookup, hk] at h
      subst h
      exact hsplit.1
    · simp [ilookup, hk] at h
      exact nodup_ilookup rest k v hsplit.2.1 h

theorem fields_disjoint : ∀ (fs : IFields) (k1 k2 : String) (v1 v2 : IVal),
    (allIdsF fs).Nodup → ilookup fs k1 = some v1 →
    ilookup fs k2 = some v2 → k1 ≠ k2 →
    ∀ x, x ∈ allIds v1 → x ∉ allIds v2
  | .nil, k1, k2, v1, v2, _, h1, _, _ => by simp [ilookup] at h1
  | .cons kh w rest, k1, k2, v1, v2, hn, h1, h2, hne => by
    have hsplit := (List.nodup_append.mp (by simpa [allIdsF] using hn))
    by_cases hk1 : kh = k1
    · have hk2 : ¬ kh = k2 := fun he => hne ((hk1.symm.trans he))
      simp [ilookup, hk1] at h1
      simp [ilookup, hk2] at h2
      subst h1
      intro x hx hx2
      exact hsplit.2.2 hx (ilookup_ids_sub rest k2 v2 h2 x hx2)
    · by_cases hk2 : kh = k2
      · simp [ilookup, hk1] at h1
        simp [ilookup, hk2] at h2
        subst h2
        intro x hx hx2
        exact hsplit.2.2 hx2 (ilookup_ids_sub rest k1 v1 h1 x hx)
      · simp [ilookup, hk1] at h1
        simp [ilookup, hk2] at h2
        exact fields_disjoint rest k1 k2 v1 v2 hsplit.2.1 h1 h2 hne

theorem nodup_pathIds_prefix : ∀ (q : List String) (t : IVal)
    (src : List String) (sv : IVal) (j : Nat),
    (allIds t).Nodup → ivalueAt t src = some sv → j ∈ allIds sv →
    j ∈ pathIds t q → isPrefixL src q = true
  | [], t, src, sv, j, _, _, _, hp => by simp [pathIds] at hp
  | k :: qrest, t, src, sv, j, hn, hsv, hjs, hp => by
    cases t with
    | obj i0 fs =>
      have hn2 : i0 ∉ allIdsF fs ∧ (allIdsF fs).Nodup := by
        simpa [allIds] using hn
      cases src with
      | nil => rfl
      | cons sk srest =>
        obtain ⟨v1, hlv1, hv1⟩ :
            ∃ v1, ilookup fs sk = some v1 ∧ ivalueAt v1 srest = some sv := by
          cases hls : ilookup fs sk with
          | some u =>
            refine ⟨u, rfl, ?_⟩
            simpa [ivalueAt, hls] using hsv
          | none => simp [ivalueAt, hls] at hsv
        have hsv_sub : ∀ x, x ∈ allIds sv → x ∈ allIdsF fs := fun x hx =>
          ilookup_ids_sub fs sk v1 hlv1 x
            (ivalueAt_ids_sub srest v1 sv hv1 x hx)
        simp only [pathIds, List.mem_cons] at hp
        cases hp with
        | inl he =>
          exact absurd (hsv_sub j hjs) (he ▸ hn2.1)
        | inr hm =>
          cases hl0 : ilookup fs k with
          | none => rw [hl0] at hm; simp at hm
          | some v0 =>
            rw [hl0] at hm
            by_cases hsk : sk = k
            · subst hsk
              have hv10 : v1 = v0 := by
                rw [hlv1] at hl0
                exact Option.some.inj hl0
              subst hv10
              have := nodup_pathIds_prefix qrest v1 srest sv j
                (nodup_ilookup fs sk v1 hn2.2 hlv1) hv1 hjs hm
              simp [isPrefixL, this]
            · have hj0 : j ∈ allIds v0 := pathIds_sub qrest v0 j hm
              have hj1 : j ∈ allIds v1 :=
                ivalueAt_ids_sub srest v1 sv hv1 j hjs
              exact absurd hj0
                (fields_disjoint fs sk k v1 v0 hn2.2 hlv1 hl0 hsk j hj1)
    | int n => simp [pathIds] at hp
    | str s => simp [pathIds] at hp
    | null => simp [pathIds] at hp

theorem initLast_append : ∀ (p : List String) (pre : List String)
    (k : String), initLast p = some (pre, k) → p = pre ++ [k]
  | [], pre, k, h => by simp [initLast] at h
  | [k0], pre, k, h => by
    simp [initLast] at h
    simp [h.1.symm, h.2.symm]
  | k0 :: k1 :: rest, pre, k, h => by
    simp only [initLast] at h
    cases hr : initLast (k1 :: rest) with
    | none => rw [hr] at h; simp at h
    | some pr =>
      rw [hr] at h
      simp only [Option.some.injEq, Prod.mk.injEq] at h
      obtain ⟨h1, h2⟩ := h
      have hrec := initLast_append (k1 :: rest) pr.1 pr.2 (by rw [hr])
      subst h1
      subst h2
      simp [hrec]

theorem iPrefixWalk_ivalueAt : ∀ (p : List String) (t u : IVal),
    iPrefixWalk t p = .ok u → ivalueAt t p = some u
  | [], t, u, h => by
    simp [iPrefixWalk] at h
    simp [ivalueAt, h]
  | k :: rest, t, u, h => by
    cases t with
    | obj j fs =>
      cases hl : ilookup fs k with
      | some v =>
        simp only [iPrefixWalk, hl] at h
        simp [ivalueAt, hl, iPrefixWalk_ivalueAt rest v u h]
      | none => simp [iPrefixWalk, hl] at h
    | int n => simp [iPrefixWalk] at h
    | str s =>
      simp only [iPrefixWalk] at h
      split at h <;> simp at h
    | null => simp [iPrefixWalk] at h

theorem ivalueAt_extend : ∀ (pre : List String) (t : IVal) (a : Nat)
    (fsa : IFields) (k : String) (sv : IVal),
    ivalueAt t pre = some (.obj a fsa) → ilookup fsa k = some sv →
    ivalueAt t (pre ++ [k]) = some sv
  | [], t, a, fsa, k, sv, h1, h2 => by
    simp [ivalueAt] at h1
    simp [h1, ivalueAt, h2]
  | k0 :: rest, t, a, fsa, k, sv, h1, h2 => by
    cases t with
    | obj j fs =>
      cases hl : ilookup fs k0 with
      | some v =>
        simp only [ivalueAt, hl] at h1
        simpa [ivalueAt, hl] using
          ivalueAt_extend rest v a fsa k sv h1 h2
      | none => simp [ivalueAt, hl] at h1
    | int n => simp [ivalueAt] at h1
    | str s => simp [ivalueAt] at h1
    | null => simp [ivalueAt] at h1

/-- C7 amended: for a tree-shaped document (distinct object identities,
as Python guarantees for decoded JSON trees) whose source path resolves,
and a fresh target path that is NOT an extension of the source path
(i.e. the source path is not a prefix of the target path — the original
claim fails when the destination is created inside the source subtree),
a successful `copy` leaves the source and destination subtrees on
disjoint sets of mutable dict objects: mutating any dict of the
destination subtree (in any way) leaves the subtree at the source path
unchanged, and mutating any dict of the source subtree leaves the
subtree at the target path unchanged. -/
theorem claim_C7_amended_copy_no_alias (data : IVal) (src tgt : List String)
    (c : Nat) (data2 : IVal) (c2 : Nat)
    (hwf : (allIds data).Nodup)
    (hc : ∀ j, j ∈ allIds data → j < c)
    (hnp : isPrefixL src tgt = false)
    (hcopy : iCopy data src tgt c = (data2, c2, none)) :
    (∀ i, i ∈ subIds data2 tgt → ∀ f,
      ivalueAt (mutateId i f data2) src = ivalueAt data2 src) ∧
    (∀ j, j ∈ subIds data2 src → ∀ f,
      ivalueAt (mutateId j f data2) tgt = ivalueAt data2 tgt) := by
  cases hil : initLast src with
  | none => simp [iCopy, hil] at hcopy
  | some pr =>
    obtain ⟨prefixes, skey⟩ := pr
    cases hpw : iPrefixWalk data prefixes with
    | error e => simp [iCopy, hil, hpw] at hcopy
    | ok node =>
      cases node with
      | obj a fsa =>
        cases hsk : ilookup fsa skey with
        | none => simp [iCopy, hil, hpw, hsk] at hcopy
        | some sv =>
          by_cases heq : ivalEq sv data = true
          · simp [iCopy, hil, hpw, hsk, heq] at hcopy
          · simp only [iCopy, hil, hpw, hsk, heq, Bool.false_eq_true,
              if_false] at hcopy
            have hsrc_eq : src = prefixes ++ [skey] :=
              initLast_append src prefixes skey hil
            have hva : ivalueAt data prefixes = some (.obj a fsa) :=
              iPrefixWalk_ivalueAt prefixes data _ hpw
            have hsv : ivalueAt data src = some sv := by
              rw [hsrc_eq]
              exact ivalueAt_extend prefixes data a fsa skey sv hva hsk
            have hc1 : c ≤ (deepcopy sv c).2 := deepcopy_counter_le sv c
            have hcv_ids : ∀ x, x ∈ allIds (deepcopy sv c).1 →
                c ≤ x ∧ x < (deepcopy sv c).2 := fun x hx =>
              deepcopy_ids_bound sv c x hx
            have hframe := iAdd_frame tgt data data2 (deepcopy sv c).1
              (deepcopy sv c).2 c2 hcopy src sv hsv hnp
            have hat : ivalueAt data2 tgt = some (deepcopy sv c).1 :=
              iAdd_at tgt data data2 (deepcopy sv c).1 (deepcopy sv c).2
                c2 hcopy
            have hpnew := iAdd_pathIds tgt data data2 (deepcopy sv c).1
              (deepcopy sv c).2 c2 hcopy
            have hsv_ids : ∀ x, x ∈ allIds sv → x < c := fun x hx =>
              hc x (ivalueAt_ids_sub src data sv hsv x hx)
            constructor
            · intro i hi f
              have hi2 : i ∈ allIds (deepcopy sv c).1 := by
                simpa [subIds, hat] using hi
              have hic : c ≤ i := (hcv_ids i hi2).1
              have hnotpath : i ∉ pathIds data2 src := by
                rw [hframe.2]
                intro hm
                have hlt := hc i (pathIds_sub src data i hm)
                omega
              rw [ivalueAt_mutateId i f src data2 hnotpath, hframe.1]
              have hnm : i ∉ allIds sv := fun hm => by
                have := hsv_ids i hm
                omega
              simp [mutateId_not_mem i f sv hnm]
            · intro j hj f
              have hj2 : j ∈ allIds sv := by
                simpa [subIds, hframe.1] using hj
              have hjc : j < c := hsv_ids j hj2
              have hnotpath : j ∉ pathIds data2 tgt := by
                intro hm
                cases hpnew j hm with
                | inl hin =>
                  have hpref := nodup_pathIds_prefix tgt data src sv j
                    hwf hsv hj2 hin
                  rw [hpref] at hnp
                  simp at hnp
                | inr hiv => omega
              rw [ivalueAt_mutateId j f tgt data2 hnotpath, hat]
              have hnm : j ∉ allIds (deepcopy sv c).1 := fun hm => by
                have := hcv_ids j hm
                omega
              simp [mutateId_not_mem j f (deepcopy sv c).1 hnm]
      | int n => simp [iCopy, hil, hpw] at hcopy
      | str s => simp [iCopy, hil, hpw] at hcopy
      | null => simp [iCopy, hil, hpw] at hcopy

/-- The counterexample document `{"a": {}}` with identities 0 and 1. -/
def c7data : IVal := .obj 0 (.cons "a" (.obj 1 .nil) .nil)

/-- The result of `copy(["a"], ["a","b"])` on `c7data`: the deep copy
(identity 2) of the source dict is installed INSIDE the source
subtree. -/
def c7data2 : IVal :=
  .obj 0 (.cons "a" (.obj 1 (.cons "b" (.obj 2 .nil) .nil)) .nil)

/-- C7 counterexample: the claim quantifies over EVERY resolvable source
path and fresh target path, but for document `{"a": {}}`,
`copy(["a"], ["a","b"])` — source resolvable, target fresh, copy
succeeds — places the copied subtree inside the source subtree, so
mutating the destination dict (identity 2, here `d["k"] = 1`) changes
the subtree at the source path `["a"]`: the subtrees DO overlap. -/
theorem claim_C7_counterexample :
    ivalueAt c7data ["a"] = some (.obj 1 .nil) ∧
      ivalueAt c7data ["a", "b"] = none ∧
      iCopy c7data ["a"] ["a", "b"] 2 = (c7data2, 3, none) ∧
      2 ∈ subIds c7data2 ["a", "b"] ∧
      ivalueAt (mutateId 2 (fun fs => .cons "k" (.int 1) fs) c7data2)
          ["a"] ≠
        ivalueAt c7data2 ["a"] := by
  refine ⟨rfl, rfl, rfl, by simp [subIds, c7data2, ivalueAt, ilookup,
    allIds, allIdsF], ?_⟩
  intro h
  rw [show ivalueAt (mutateId 2 (fun fs => .cons "k" (.int 1) fs)
        c7data2) ["a"] =
      some (.obj 1 (.cons "b" (.obj 2 (.cons "k" (.int 1) .nil)) .nil))
      from rfl,
    show ivalueAt c7data2 ["a"] =
      some (.obj 1 (.cons "b" (.obj 2 .nil) .nil)) from rfl] at h
  simp at h

/-- The witness document `{"x": {}}` with identities 0 and 1. -/
def c7wdata : IVal := .obj 0 (.cons "x" (.obj 1 .nil) .nil)

/-- The result of `copy(["x"], ["z"])` on `c7wdata`. -/
def c7wdata2 : IVal :=
  .obj 0 (.cons "x" (.obj 1 .nil) (.cons "z" (.obj 2 .nil) .nil))

theorem claim_C7_amended_witness :
    (allIds c7wdata).Nodup ∧
      (∀ j, j ∈ allIds c7wdata → j < 2) ∧
      isPrefixL ["x"] ["z"] = false ∧
      iCopy c7wdata ["x"] ["z"] 2 = (c7wdata2, 3, none) ∧
      ((∀ i, i ∈ subIds c7wdata2 ["z"] → ∀ f,
          ivalueAt (mutateId i f c7wdata2) ["x"] =
            ivalueAt c7wdata2 ["x"]) ∧
        (∀ j, j ∈ subIds c7wdata2 ["x"] → ∀ f,
          ivalueAt (mutateId j f c7wdata2) ["z"] =
            ivalueAt c7wdata2 ["z"])) :=
  ⟨by decide, by decide, rfl, rfl,
    claim_C7_amended_copy_no_alias c7wdata ["x"] ["z"] 2 c7wdata2 3
      (by decide) (by decide) rfl rfl⟩
